import Mathlib

/-!
Verification of the TEMOA run-configuration core (`temoa_model/temoa_config.py`):
the scenario advance operations (`next_mga` / `next_moo` / `next_mgpa`), the
sweep-queue population in `TemoaConfig.build`, the lexer's error-span
accumulation (`t_ANY_error`) and newline counting (`t_ANY_newline`), the
`--input` token rule (`t_dot_dat`), the relational-vs-flat input-mode
classification and the relational-mode validation checks in `build`, the
table-driven DB → DAT exporter (`query_table` inside `db_2_dat`), and the
myopic cleanup in `db_2_dat`.

Python queues/lists are modelled as Lean lists (FIFO: `put` appends at the
end, `get` pops at the head), Python strings as `String` / `List Char`, and
fallible validation as `Except String Unit`.
-/

namespace Temoa

/-- State of the `TemoaConfig` sweep queues and the current scenario name.
`scenario` is an `Option String` because `self.scenario` is initialised to
`None`; the done queues record whatever `self.scenario` held when `put` was
called on them. -/
structure ConfigState where
  mga_todo : List String
  mga_done : List (Option String)
  moo_todo : List String
  moo_done : List (Option String)
  mgpa_todo : List String
  mgpa_done : List (Option String)
  scenario : Option String
deriving DecidableEq, Repr

/-- `TemoaConfig.next_mga`: if the MGA todo queue is non-empty, put the
current scenario on the MGA done queue, pop the head of todo into
`scenario` and return `True`; otherwise return `False`. -/
def next_mga (s : ConfigState) : Bool × ConfigState :=
  match s.mga_todo with
  | [] => (false, s)
  | x :: rest =>
      (true, { s with mga_done := s.mga_done ++ [s.scenario],
                      scenario := some x, mga_todo := rest })

/-- `TemoaConfig.next_moo`: same contract as `next_mga`, on the MOO queues. -/
def next_moo (s : ConfigState) : Bool × ConfigState :=
  match s.moo_todo with
  | [] => (false, s)
  | x :: rest =>
      (true, { s with moo_done := s.moo_done ++ [s.scenario],
                      scenario := some x, moo_todo := rest })

/-- `TemoaConfig.next_mgpa`: same contract as `next_mga`, on the MGPA
queues. -/
def next_mgpa (s : ConfigState) : Bool × ConfigState :=
  match s.mgpa_todo with
  | [] => (false, s)
  | x :: rest =>
      (true, { s with mgpa_done := s.mgpa_done ++ [s.scenario],
                      scenario := some x, mgpa_todo := rest })

/-- Repeatedly call an advance operation `n` times, keeping only the final
state (models a driver loop calling `next_*` after exhaustion). -/
def iterateNext (f : ConfigState → Bool × ConfigState) : Nat → ConfigState → ConfigState
  | 0, s => s
  | n + 1, s => iterateNext f n (f s).2

/-- MGPA queue population from `TemoaConfig.build`: for each cap index
`i < ncaps`, put `scenario + '_moo_' + str(i)`; then, when `mgpa_iter` is
set, for each `j < iter`, put
`scenario + '_moo_' + str(i) + '_mga_' + str(j)`.  A count of `0` models
Python's falsy `None` / `0` (the code guards with `if self.mgpa_ncaps:` and
`if self.mgpa_iter:`; an outer guard of `ncaps = 0` and `List.range 0 = []`
both yield the empty queue). -/
def mgpaBlock (scenario : String) (iter : Nat) (i : Nat) : List String :=
  (scenario ++ "_moo_" ++ toString i) ::
    (if iter ≠ 0 then
      (List.range iter).map (fun j =>
        scenario ++ "_moo_" ++ toString i ++ "_mga_" ++ toString j)
    else [])

def mgpa_populate (scenario : String) (ncaps iter : Nat) : List String :=
  (List.range ncaps).flatMap (mgpaBlock scenario iter)

/-- Indexing a concatenation of `n` blocks of uniform length `L`: the entry
at position `i * L + j` is entry `j` of block `i`. -/
theorem flatMap_range_uniform_getElem {α : Type} (L : Nat) :
    ∀ (i : Nat) (B : Nat → List α) (n j : Nat), (∀ k, (B k).length = L) →
      i < n → j < L →
      ((List.range n).flatMap B)[i * L + j]? = (B i)[j]? := by
  intro i
  induction i with
  | zero =>
      intro B n j hB hi hj
      cases n with
      | zero => exact absurd hi (by omega)
      | succ m =>
          rw [List.range_succ_eq_map, List.flatMap_cons, Nat.zero_mul,
            Nat.zero_add, List.getElem?_append, if_pos (by rw [hB 0]; exact hj)]
  | succ i ih =>
      intro B n j hB hi hj
      cases n with
      | zero => exact absurd hi (by omega)
      | succ m =>
          rw [List.range_succ_eq_map, List.flatMap_cons]
          have hidx : (B 0).length ≤ (i + 1) * L + j := by
            rw [hB 0, Nat.succ_mul]; omega
          rw [List.getElem?_append_right hidx]
          have hsub : (i + 1) * L + j - (B 0).length = i * L + j := by
            rw [hB 0, Nat.succ_mul]; omega
          rw [hsub]
          have hmap : ((List.range m).map Nat.succ).flatMap B
              = (List.range m).flatMap (fun k => B (k + 1)) := by
            simp [List.flatMap_def, List.map_map, Function.comp_def]
          rw [hmap]
          exact ih (fun k => B (k + 1)) m j (fun k => hB (k + 1)) (by omega) hj

/-- C1: for each sweep technique (MGA, MOO, MGPA), the advance operation
appends the current scenario name to that technique's done queue, pops the
front pending name into the scenario field and returns `true` when the
pending queue is non-empty; when it is empty it returns `false` and leaves
the whole state unchanged, and any number of further calls after exhaustion
also return `false` without mutating anything. -/
theorem next_advance_spec :
    (∀ s x rest, s.mga_todo = x :: rest →
        next_mga s = (true, { s with mga_done := s.mga_done ++ [s.scenario],
                                     scenario := some x, mga_todo := rest })) ∧
    (∀ s, s.mga_todo = [] → next_mga s = (false, s)) ∧
    (∀ s n, s.mga_todo = [] → iterateNext next_mga n s = s) ∧
    (∀ s x rest, s.moo_todo = x :: rest →
        next_moo s = (true, { s with moo_done := s.moo_done ++ [s.scenario],
                                     scenario := some x, moo_todo := rest })) ∧
    (∀ s, s.moo_todo = [] → next_moo s = (false, s)) ∧
    (∀ s n, s.moo_todo = [] → iterateNext next_moo n s = s) ∧
    (∀ s x rest, s.mgpa_todo = x :: rest →
        next_mgpa s = (true, { s with mgpa_done := s.mgpa_done ++ [s.scenario],
                                      scenario := some x, mgpa_todo := rest })) ∧
    (∀ s, s.mgpa_todo = [] → next_mgpa s = (false, s)) ∧
    (∀ s n, s.mgpa_todo = [] → iterateNext next_mgpa n s = s) := by
  have hmga : ∀ s, s.mga_todo = [] → next_mga s = (false, s) := by
    intro s h; simp [next_mga, h]
  have hmoo : ∀ s, s.moo_todo = [] → next_moo s = (false, s) := by
    intro s h; simp [next_moo, h]
  have hmgpa : ∀ s, s.mgpa_todo = [] → next_mgpa s = (false, s) := by
    intro s h; simp [next_mgpa, h]
  refine ⟨?_, hmga, ?_, ?_, hmoo, ?_, ?_, hmgpa, ?_⟩
  · intro s x rest h; simp [next_mga, h]
  · intro s n h
    induction n with
    | zero => rfl
    | succ m ih => rw [iterateNext, hmga s h, ih]
  · intro s x rest h; simp [next_moo, h]
  · intro s n h
    induction n with
    | zero => rfl
    | succ m ih => rw [iterateNext, hmoo s h, ih]
  · intro s x rest h; simp [next_mgpa, h]
  · intro s n h
    induction n with
    | zero => rfl
    | succ m ih => rw [iterateNext, hmgpa s h, ih]

/-- Witness for C1 at a concrete state: one pending MGA scenario, exhausted
MOO and MGPA queues. -/
theorem next_advance_spec_witness :
    next_mga ⟨["a"], [], [], [], [], [], some "base"⟩ =
      (true, ⟨[], [some "base"], [], [], [], [], some "a"⟩) ∧
    next_moo ⟨["a"], [], [], [], [], [], some "base"⟩ =
      (false, ⟨["a"], [], [], [], [], [], some "base"⟩) ∧
    iterateNext next_mgpa 5 ⟨["a"], [], [], [], [], [], some "base"⟩ =
      ⟨["a"], [], [], [], [], [], some "base"⟩ := by
  refine ⟨?_, ?_, ?_⟩
  · exact next_advance_spec.1 ⟨["a"], [], [], [], [], [], some "base"⟩ "a" [] rfl
  · exact next_advance_spec.2.2.2.2.1 ⟨["a"], [], [], [], [], [], some "base"⟩ rfl
  · exact next_advance_spec.2.2.2.2.2.2.2.2
      ⟨["a"], [], [], [], [], [], some "base"⟩ 5 rfl

/-- C2: for MGPA with `ncaps ≥ 1` and `iteration ≥ 1`, queue population
yields exactly `ncaps * (1 + iteration)` pending entries; entry
`i * (1 + iteration)` is the name for cap `i` alone and entry
`i * (1 + iteration) + 1 + j` is the `j`-th nested name inside cap `i`
(cap-major, iteration-minor order); in particular `ncaps = 2`,
`iteration = 3` gives exactly these 8 names in this order. -/
theorem mgpa_queue_spec (scenario : String) (ncaps iter : Nat)
    (hn : 1 ≤ ncaps) (hi : 1 ≤ iter) :
    (mgpa_populate scenario ncaps iter).length = ncaps * (1 + iter) ∧
    (∀ i, i < ncaps →
      (mgpa_populate scenario ncaps iter)[i * (1 + iter)]? =
        some (scenario ++ "_moo_" ++ toString i)) ∧
    (∀ i j, i < ncaps → j < iter →
      (mgpa_populate scenario ncaps iter)[i * (1 + iter) + 1 + j]? =
        some (scenario ++ "_moo_" ++ toString i ++ "_mga_" ++ toString j)) ∧
    mgpa_populate scenario 2 3 =
      [scenario ++ "_moo_" ++ toString 0,
       scenario ++ "_moo_" ++ toString 0 ++ "_mga_" ++ toString 0,
       scenario ++ "_moo_" ++ toString 0 ++ "_mga_" ++ toString 1,
       scenario ++ "_moo_" ++ toString 0 ++ "_mga_" ++ toString 2,
       scenario ++ "_moo_" ++ toString 1,
       scenario ++ "_moo_" ++ toString 1 ++ "_mga_" ++ toString 0,
       scenario ++ "_moo_" ++ toString 1 ++ "_mga_" ++ toString 1,
       scenario ++ "_moo_" ++ toString 1 ++ "_mga_" ++ toString 2] := by
  have hB : ∀ k, (mgpaBlock scenario iter k).length = 1 + iter := by
    intro k
    simp [mgpaBlock, if_pos (by omega : iter ≠ 0)]
    omega
  refine ⟨?_, ?_, ?_, ?_⟩
  · rw [mgpa_populate, List.length_flatMap]
    have : List.map (List.length ∘ mgpaBlock scenario iter) (List.range ncaps)
        = List.replicate ncaps (1 + iter) := by
      rw [List.eq_replicate_iff]
      constructor
      · simp
      · intro b hb
        obtain ⟨k, _, rfl⟩ := List.mem_map.mp hb
        exact hB k
    rw [this, List.sum_replicate, smul_eq_mul]
  · intro i hik
    have h := flatMap_range_uniform_getElem (1 + iter) i
      (mgpaBlock scenario iter) ncaps 0 hB hik (by omega)
    rw [Nat.add_zero] at h
    rw [mgpa_populate, h, mgpaBlock, List.getElem?_cons_zero]
  · intro i j hik hjk
    have h := flatMap_range_uniform_getElem (1 + iter) i
      (mgpaBlock scenario iter) ncaps (1 + j) hB hik (by omega)
    have hidx : i * (1 + iter) + 1 + j = i * (1 + iter) + (1 + j) := by omega
    rw [mgpa_populate, hidx, h, mgpaBlock, if_pos (by omega : iter ≠ 0)]
    have : (1 : Nat) + j = j + 1 := by omega
    rw [this, List.getElem?_cons_succ, List.getElem?_map,
      List.getElem?_range hjk]
    rfl
  · rfl

/-- Witness for C2 at `scenario = "s"`, `ncaps = 2`, `iteration = 3`. -/
theorem mgpa_queue_spec_witness :
    (mgpa_populate "s" 2 3).length = 2 * (1 + 3) ∧
    (mgpa_populate "s" 2 3)[1 * (1 + 3)]? = some ("s" ++ "_moo_" ++ toString 1) ∧
    (mgpa_populate "s" 2 3)[1 * (1 + 3) + 1 + 2]? =
      some ("s" ++ "_moo_" ++ toString 1 ++ "_mga_" ++ toString 2) := by
  refine ⟨(mgpa_queue_spec "s" 2 3 (by omega) (by omega)).1,
    (mgpa_queue_spec "s" 2 3 (by omega) (by omega)).2.1 1 (by omega),
    (mgpa_queue_spec "s" 2 3 (by omega) (by omega)).2.2.1 1 2 (by omega) (by omega)⟩

/-- Index of the last occurrence of `c` in `cs` (Python `str.rfind`,
returning `none` instead of `-1`). -/
def lastIndexOf (c : Char) (cs : List Char) : Option Nat :=
  ((cs.enum).filter (fun p => p.2 = c)).getLast? |>.map (fun p => p.1)

/-- `os.path.splitext`: split a path at the last dot of its basename; the
extension is empty when there is no such dot or when the basename consists
only of dots up to it (leading-dot files such as `.bashrc` have no
extension). -/
def splitext (s : String) : String × String :=
  let cs := s.data
  match lastIndexOf '.' cs with
  | none => (s, "")
  | some d =>
      let sepNext : Nat :=
        match lastIndexOf '/' cs with
        | none => 0
        | some k => k + 1
      if sepNext ≤ d ∧ ((cs.drop sepNext).take (d - sepNext)).any (fun ch => ch ≠ '.') then
        (String.mk (cs.take d), String.mk (cs.drop d))
      else (s, "")

/-- One step of the `for i in self.dot_dat` loop of `TemoaConfig.build` that
re-evaluates the `db_or_dat` flag per file: flat extensions force `False`,
relational extensions force `True`, anything else leaves the flag alone.
(The literal `'sqlitedb'` has no leading dot and can never equal a
`splitext` extension, exactly as in the code.) -/
def classifyStep (db_or_dat : Bool) (i : String) : Bool :=
  let i_ext := (splitext i).2
  if i_ext = ".dat" ∨ i_ext = ".txt" then false
  else if i_ext = ".db" ∨ i_ext = ".sqlite" ∨ i_ext = ".sqlite3" ∨ i_ext = "sqlitedb" then true
  else db_or_dat

/-- The overall relational-vs-flat mode computed by `TemoaConfig.build`:
`db_or_dat` starts `True` and is re-evaluated in order over the input
files. -/
def db_or_dat_mode (files : List String) : Bool :=
  files.foldl classifyStep true

/-- Classification of a single file as the spec describes it: `some false`
for flat extensions, `some true` for relational extensions, `none` when the
extension is not recognized.  Used only to state the last-wins property. -/
def classifyFile (i : String) : Option Bool :=
  let i_ext := (splitext i).2
  if i_ext = ".dat" ∨ i_ext = ".txt" then some false
  else if i_ext = ".db" ∨ i_ext = ".sqlite" ∨ i_ext = ".sqlite3" ∨ i_ext = "sqlitedb" then some true
  else none

theorem classifyStep_eq_getD (b : Bool) (i : String) :
    classifyStep b i = (classifyFile i).getD b := by
  simp only [classifyStep, classifyFile]
  split_ifs <;> rfl

theorem foldl_classifyStep (files : List String) (b : Bool) :
    files.foldl classifyStep b = (files.reverse.findSome? classifyFile).getD b := by
  induction files generalizing b with
  | nil => rfl
  | cons f fs ih =>
      rw [List.foldl_cons, ih, List.reverse_cons, List.findSome?_append]
      cases hfs : fs.reverse.findSome? classifyFile with
      | some v => simp [hfs]
      | none =>
          simp only [hfs, classifyStep_eq_getD]
          cases hc : classifyFile f <;> simp [List.findSome?, hc]

/-- C5: the overall mode over a non-empty input list is decided by the
last-seen file whose extension is recognized (`getD true` when none is);
this is genuinely last-wins, not an OR/AND: a relational file followed by a
flat file yields flat mode and vice versa. -/
theorem db_or_dat_last_wins (files : List String) (h : files ≠ []) :
    db_or_dat_mode files = (files.reverse.findSome? classifyFile).getD true ∧
    db_or_dat_mode ["a.db", "b.dat"] = false ∧
    db_or_dat_mode ["b.dat", "a.db"] = true := by
  refine ⟨foldl_classifyStep files true, by decide, by decide⟩

/-- Witness for C5 at a concrete two-file list. -/
theorem db_or_dat_last_wins_witness :
    db_or_dat_mode ["a.db", "b.dat"] =
      ((["a.db", "b.dat"].reverse.findSome? classifyFile).getD true) := by
  exact (db_or_dat_last_wins ["a.db", "b.dat"] (by decide)).1.trans (by decide)

/-- The three relational-mode checks of `TemoaConfig.build` run in code
order: missing output file, output file not on disk, missing scenario
name; each raises an `Exception` (modelled as `Except.error`).  Python's
`isfile(self.output)` is only reached with `self.output` set (the first
check fires otherwise), so the `none` branch value is irrelevant; `not
self.output` is modelled as `output = none` (lexing never produces an
empty output string). -/
def build_output_checks (db_or_dat : Bool) (output : Option String)
    (isfile : String → Bool) (scenario : Option String) : Except String Unit :=
  let output_isfile : Bool := match output with | some o => isfile o | none => false
  if output = none ∧ db_or_dat then
    Except.error "Output file not specified."
  else if db_or_dat ∧ output_isfile = false then
    Except.error "Cannot locate output file."
  else if scenario = none ∧ db_or_dat then
    Except.error "Scenario name not specified."
  else Except.ok ()

/-- C4: in relational mode the run fails when the output file is unset,
when it is not on disk, or when the scenario name is unset — and succeeds
exactly when none of the three holds; in flat-text mode all three checks
are skipped and validation always succeeds. -/
theorem relational_checks_spec :
    (∀ output isfile scenario,
      build_output_checks false output isfile scenario = Except.ok ()) ∧
    (∀ output isfile scenario,
      build_output_checks true output isfile scenario = Except.ok () ↔
        (∃ o, output = some o ∧ isfile o = true) ∧ scenario ≠ none) ∧
    (∀ isfile scenario,
      build_output_checks true none isfile scenario =
        Except.error "Output file not specified.") ∧
    (∀ o isfile scenario, isfile o = false →
      build_output_checks true (some o) isfile scenario =
        Except.error "Cannot locate output file.") ∧
    (∀ o isfile, isfile o = true →
      build_output_checks true (some o) isfile none =
        Except.error "Scenario name not specified.") := by
  refine ⟨?_, ?_, ?_, ?_, ?_⟩
  · intro output isfile scenario
    simp [build_output_checks]
  · intro output isfile scenario
    cases output with
    | none => simp [build_output_checks]
    | some o =>
        cases scenario with
        | none =>
            by_cases hf : isfile o <;> simp [build_output_checks, hf]
        | some sc =>
            by_cases hf : isfile o <;> simp [build_output_checks, hf]
  · intro isfile scenario
    simp [build_output_checks]
  · intro o isfile scenario hf
    simp [build_output_checks, hf]
  · intro o isfile hf
    simp [build_output_checks, hf]

/-- Witness for C4 at concrete inputs: flat mode succeeds with everything
unset; relational mode succeeds with an existing output and a scenario. -/
theorem relational_checks_spec_witness :
    build_output_checks false none (fun _ => false) none = Except.ok () ∧
    (build_output_checks true (some "out.db") (fun o => o == "out.db")
        (some "base") = Except.ok () ↔
      (∃ o, (some "out.db" : Option String) = some o ∧ (o == "out.db") = true) ∧
        (some "base" : Option String) ≠ none) ∧
    build_output_checks true (some "out.db") (fun _ => false) (some "base") =
      Except.error "Cannot locate output file." := by
  refine ⟨relational_checks_spec.1 none (fun _ => false) none,
    relational_checks_spec.2.1 (some "out.db") (fun o => o == "out.db") (some "base"),
    relational_checks_spec.2.2.2.1 "out.db" (fun _ => false) (some "base") rfl⟩

/-- One accumulated illegal-input region of `self.__error`: inclusive line
range (`'line'`), inclusive offset range (`'index'`) and the offending text
(`'value'`). -/
structure ErrorSpan where
  lineStart : Nat
  lineEnd : Nat
  idxStart : Nat
  idxEnd : Nat
  value : List Char
deriving DecidableEq, Repr

/-- `TemoaConfig.t_ANY_error` on one illegal character at line `lineno` and
offset `lexpos`: start a new span when no error exists yet; extend the most
recent span when `lexpos - last index == 1` (in `Nat` as in Python ints,
this test holds exactly when `lexpos = idxEnd + 1`); otherwise start a new
span. -/
def t_ANY_error : List ErrorSpan → Nat → Nat → Char → List ErrorSpan
  | [], lineno, lexpos, ch => [⟨lineno, lineno, lexpos, lexpos, [ch]⟩]
  | [e], lineno, lexpos, ch =>
      if lexpos - e.idxEnd = 1 then
        [{ e with lineEnd := lineno, idxEnd := lexpos, value := e.value ++ [ch] }]
      else
        [e, ⟨lineno, lineno, lexpos, lexpos, [ch]⟩]
  | e :: e2 :: rest, lineno, lexpos, ch =>
      e :: t_ANY_error (e2 :: rest) lineno lexpos ch

/-- Fold `t_ANY_error` over a list of illegal-character events
`(lineno, lexpos, char)` in lexing order. -/
def lexErrorEvents (errs : List ErrorSpan) (evts : List (Nat × Nat × Char)) :
    List ErrorSpan :=
  evts.foldl (fun es e => t_ANY_error es e.1 e.2.1 e.2.2) errs

/-- Events for a run of illegal characters at contiguous offsets starting
at `p`: item `i` of `items` is the pair (line, char) seen at offset
`p + i`. -/
def mkRun (p : Nat) : List (Nat × Char) → List (Nat × Nat × Char)
  | [] => []
  | (l, c) :: rest => (l, p, c) :: mkRun (p + 1) rest

/-- The line of the last event of a run (`dflt` for an empty run). -/
def lastLineOf (items : List (Nat × Char)) (dflt : Nat) : Nat :=
  ((items.getLast?).map Prod.fst).getD dflt

theorem t_ANY_error_ne_nil (errs : List ErrorSpan) (l p : Nat) (c : Char) :
    t_ANY_error errs l p c ≠ [] := by
  match errs with
  | [] => simp [t_ANY_error]
  | [e] =>
      rw [t_ANY_error]
      split <;> simp
  | e :: e2 :: rest => simp [t_ANY_error]

theorem t_ANY_error_append (xs : List ErrorSpan) :
    ∀ (ys : List ErrorSpan), ys ≠ [] → ∀ l p c,
      t_ANY_error (xs ++ ys) l p c = xs ++ t_ANY_error ys l p c := by
  induction xs with
  | nil => intros; rfl
  | cons x xs ih =>
      intro ys hys l p c
      cases hxy : xs ++ ys with
      | nil => exact absurd ((List.append_eq_nil.mp hxy).2) hys
      | cons a t =>
          show t_ANY_error (x :: (xs ++ ys)) l p c = x :: (xs ++ t_ANY_error ys l p c)
          rw [hxy]
          show x :: t_ANY_error (a :: t) l p c = x :: (xs ++ t_ANY_error ys l p c)
          rw [← hxy, ih ys hys l p c]

theorem lexErrorEvents_append (evts : List (Nat × Nat × Char)) :
    ∀ (xs ys : List ErrorSpan), ys ≠ [] →
      lexErrorEvents (xs ++ ys) evts = xs ++ lexErrorEvents ys evts := by
  induction evts with
  | nil => intros; rfl
  | cons e evts ih =>
      intro xs ys hys
      show lexErrorEvents (t_ANY_error (xs ++ ys) e.1 e.2.1 e.2.2) evts
        = xs ++ lexErrorEvents (t_ANY_error ys e.1 e.2.1 e.2.2) evts
      rw [t_ANY_error_append xs ys hys, ih xs _ (t_ANY_error_ne_nil ys e.1 e.2.1 e.2.2)]

theorem lastLineOf_cons (l : Nat) (c : Char) (rest : List (Nat × Char)) (dflt : Nat) :
    lastLineOf ((l, c) :: rest) dflt = lastLineOf rest l := by
  cases rest with
  | nil => rfl
  | cons r t => simp [lastLineOf, List.getLast?]

/-- Folding a contiguous run of illegal characters into a single pending
span extends that span over the whole run. -/
theorem run_extends_span :
    ∀ (items : List (Nat × Char)) (ls le a b : Nat) (v : List Char),
      lexErrorEvents [⟨ls, le, a, b, v⟩] (mkRun (b + 1) items)
        = [⟨ls, lastLineOf items le, a, b + items.length, v ++ items.map Prod.snd⟩] := by
  intro items
  induction items with
  | nil => intro ls le a b v; simp [lexErrorEvents, mkRun, lastLineOf]
  | cons lc rest ih =>
      intro ls le a b v
      obtain ⟨l, c⟩ := lc
      show lexErrorEvents (t_ANY_error [⟨ls, le, a, b, v⟩] l (b + 1) c) (mkRun (b + 1 + 1) rest)
        = _
      rw [show t_ANY_error [⟨ls, le, a, b, v⟩] l (b + 1) c
            = [⟨ls, l, a, b + 1, v ++ [c]⟩] by rw [t_ANY_error]; simp,
        ih ls l a (b + 1) (v ++ [c]), lastLineOf_cons]
      have h1 : b + 1 + rest.length = b + (rest.length + 1) := by omega
      have h2 : v ++ [c] ++ List.map Prod.snd rest = v ++ c :: List.map Prod.snd rest := by
        simp
      simp only [List.map_cons, List.length_cons, h1, h2]

theorem t_ANY_error_fresh (xs : List ErrorSpan) (e : ErrorSpan) (l p : Nat) (c : Char)
    (hgap : p - e.idxEnd ≠ 1) :
    t_ANY_error (xs ++ [e]) l p c = (xs ++ [e]) ++ [⟨l, l, p, p, [c]⟩] := by
  rw [t_ANY_error_append xs [e] (by simp) l p c, t_ANY_error, if_neg hgap]
  simp

theorem t_ANY_error_extend (xs : List ErrorSpan) (e : ErrorSpan) (l p : Nat) (c : Char)
    (hadj : p = e.idxEnd + 1) :
    t_ANY_error (xs ++ [e]) l p c
      = xs ++ [{ e with lineEnd := l, idxEnd := p, value := e.value ++ [c] }] := by
  rw [t_ANY_error_append xs [e] (by simp) l p c, t_ANY_error,
    if_pos (by omega : p - e.idxEnd = 1)]

/-- C3: each illegal character either extends the most recent `ErrorSpan`
(exactly when its offset is one past that span's last recorded offset,
updating end line, end offset and text) or starts a new span (when no error
exists yet, or when the offset gap exceeds one); consequently a maximal run
of illegal characters at contiguous offsets `p, p+1, …` — entered either
with no prior error or with a gap of more than one from the previous span —
produces exactly one new `ErrorSpan` covering the full line and offset
range, holding the run's text. -/
theorem error_span_spec :
    (∀ l p c, t_ANY_error [] l p c = [⟨l, l, p, p, [c]⟩]) ∧
    (∀ xs e l p c, p = e.idxEnd + 1 →
      t_ANY_error (xs ++ [e]) l p c
        = xs ++ [{ e with lineEnd := l, idxEnd := p, value := e.value ++ [c] }]) ∧
    (∀ xs e l p c, e.idxEnd + 1 < p →
      t_ANY_error (xs ++ [e]) l p c = (xs ++ [e]) ++ [⟨l, l, p, p, [c]⟩]) ∧
    (∀ (errs : List ErrorSpan) (p l0 : Nat) (c0 : Char) (rest : List (Nat × Char)),
      (errs = [] ∨ ∃ xs e, errs = xs ++ [e] ∧ e.idxEnd + 1 < p) →
      lexErrorEvents errs (mkRun p ((l0, c0) :: rest))
        = errs ++ [⟨l0, lastLineOf rest l0, p, p + rest.length,
                    c0 :: rest.map Prod.snd⟩]) := by
  refine ⟨fun l p c => rfl, t_ANY_error_extend,
    fun xs e l p c h => t_ANY_error_fresh xs e l p c (by omega), ?_⟩
  intro errs p l0 c0 rest hstart
  have hstep : t_ANY_error errs l0 p c0 = errs ++ [⟨l0, l0, p, p, [c0]⟩] := by
    rcases hstart with rfl | ⟨xs, e, rfl, hgap⟩
    · rfl
    · exact t_ANY_error_fresh xs e l0 p c0 (by omega)
  show lexErrorEvents (t_ANY_error errs l0 p c0) (mkRun (p + 1) rest) = _
  rw [hstep, lexErrorEvents_append _ errs [⟨l0, l0, p, p, [c0]⟩] (by simp),
    run_extends_span rest l0 l0 p p [c0]]
  simp

/-- Witness for C3: a three-character contiguous run at offsets 5, 6, 7 on
line 1 merges into the single span `[1,1] × [5,7]` with text `xyz`, both
from an empty error list and after a non-adjacent earlier span. -/
theorem error_span_spec_witness :
    lexErrorEvents [] (mkRun 5 [(1, 'x'), (1, 'y'), (1, 'z')])
      = [⟨1, 1, 5, 7, ['x', 'y', 'z']⟩] ∧
    lexErrorEvents [⟨1, 1, 0, 2, ['a', 'b', 'c']⟩]
        (mkRun 5 [(1, 'x'), (1, 'y'), (1, 'z')])
      = [⟨1, 1, 0, 2, ['a', 'b', 'c']⟩, ⟨1, 1, 5, 7, ['x', 'y', 'z']⟩] := by
  constructor
  · have h := error_span_spec.2.2.2 [] 5 1 'x' [(1, 'y'), (1, 'z')] (Or.inl rfl)
    simpa using h
  · have h := error_span_spec.2.2.2 [⟨1, 1, 0, 2, ['a', 'b', 'c']⟩] 5 1 'x'
      [(1, 'y'), (1, 'z')]
      (Or.inr ⟨[], ⟨1, 1, 0, 2, ['a', 'b', 'c']⟩, rfl, by decide⟩)
    simpa using h

/-- Maximal run of consecutive `'\r''\n'` pairs at the head of the input
(the regex piece `(\r\n)+`). -/
def takeCRLFReps : List Char → List Char × List Char
  | '\r' :: '\n' :: rest =>
      let (a, b) := takeCRLFReps rest
      ('\r' :: '\n' :: a, b)
  | cs => ([], cs)

/-- The token match of `t_ANY_newline`, regex `\n+|(\r\n)+|\r+`: Python
tries the alternatives left to right at the current position, each
greedy. -/
def t_ANY_newline_match : List Char → Option (List Char × List Char)
  | '\n' :: rest =>
      some (('\n' :: rest).takeWhile (fun x => x = '\n'),
            ('\n' :: rest).dropWhile (fun x => x = '\n'))
  | '\r' :: '\n' :: rest => some (takeCRLFReps ('\r' :: '\n' :: rest))
  | '\r' :: rest =>
      some (('\r' :: rest).takeWhile (fun x => x = '\r'),
            ('\r' :: rest).dropWhile (fun x => x = '\r'))
  | _ => none

/-- The action of `t_ANY_newline`: `t.lexer.lineno += len(t.value)`. -/
def t_ANY_newline_action (lineno : Nat) (value : List Char) : Nat :=
  lineno + value.length

/-- Modelled from the spec: the number of newline sequences in a matched
token, counting each of LF, CRLF and CR as one line increment (this is
what the code's own comment `'\n' (In linux) = '\r\n' (In Windows) = '\r'
(In Mac OS)` describes).  Stated for comparison with the code's
`t_ANY_newline_action`. -/
def specNewlineIncrements : List Char → Nat
  | '\r' :: '\n' :: rest => 1 + specNewlineIncrements rest
  | '\n' :: rest => 1 + specNewlineIncrements rest
  | '\r' :: rest => 1 + specNewlineIncrements rest
  | _ :: rest => specNewlineIncrements rest
  | [] => 0

/-- C8 (code bug): a lone LF or CR token does increment the line counter by
one, but a CRLF sequence is matched as the single token `"\r\n"` and the
action adds `len(t.value) = 2`, double-counting the one Windows newline the
code's comment documents. -/
theorem newline_crlf_double_count :
    t_ANY_newline_match "\r\nx".data = some ("\r\n".data, "x".data) ∧
    t_ANY_newline_action 1 "\r\n".data = 3 ∧
    specNewlineIncrements "\r\n".data = 1 ∧
    t_ANY_newline_match "\nx".data = some ("\n".data, "x".data) ∧
    t_ANY_newline_action 1 "\n".data = 2 ∧
    specNewlineIncrements "\n".data = 1 ∧
    t_ANY_newline_match "\rx".data = some ("\r".data, "x".data) ∧
    t_ANY_newline_action 1 "\r".data = 2 ∧
    specNewlineIncrements "\r".data = 1 := by
  refine ⟨?_, rfl, rfl, ?_, rfl, rfl, ?_, rfl, rfl⟩ <;> rfl

/-- The single-quote character, written by code point to keep source text
plain. -/
def squote : Char := Char.ofNat 39

/-- A database cell of a sqlite3 row tuple (the tables exported here hold
text and integer columns). -/
inductive Cell where
  | s (v : String)
  | i (v : Int)
deriving DecidableEq, Repr

/-- Python `str` of one cell, as used for `str(line[0])`. -/
def pyStr : Cell → String
  | .s v => v
  | .i v => toString v

/-- Python `repr` of one cell inside a tuple: strings are single-quoted
(cell text is assumed quote- and escape-free, as table identifiers are),
integers print as digits. -/
def pyRepr : Cell → String
  | .s v => String.singleton squote ++ v ++ String.singleton squote
  | .i v => toString v

/-- Python `str` of a row tuple: `()`, `('A',)`, `('A', 1)`, … -/
def pyReprTuple : List Cell → String
  | [] => "()"
  | [c] => "(" ++ pyRepr c ++ ",)"
  | cs => "(" ++ String.intercalate ", " (cs.map pyRepr) ++ ")"

/-- `re.sub('[(]', '', x)`: drop every opening parenthesis. -/
def subParen (cs : List Char) : List Char :=
  cs.filter (fun c => c ≠ '(')

/-- `re.sub('[\x27,)]', '    ', x)`: replace every single quote, comma and
closing parenthesis by four spaces. -/
def subPunct (cs : List Char) : List Char :=
  cs.flatMap (fun c => if c = squote ∨ c = ',' ∨ c = ')' then "    ".data else [c])

/-- Python regex word character (`\w`), over the ASCII data appearing in
these tables. -/
def isWordChar (c : Char) : Bool :=
  c.isAlphanum || c = '_'

/-- `re.search('^\W+$', x)` succeeds: non-empty and all non-word. -/
def isAllNonWord (cs : List Char) : Bool :=
  !cs.isEmpty && cs.all (fun c => !(isWordChar c))

/-- One data line of `query_table` for `t_index ≠ 0`:
`before_comments = line[:t_index+1]` collapsed, then — unless
`after_comments = line[t_index+2:]` collapses to all non-word text — a
`# `-prefixed trailing comment. -/
def rowLine (t_index : Nat) (line : List Cell) : String :=
  let before := subPunct (subParen (pyReprTuple (line.take (t_index + 1))).data)
  let after := subPunct (subParen (pyReprTuple (line.drop (t_index + 2))).data)
  if isAllNonWord after then
    String.mk before ++ "\n"
  else
    String.mk before ++ "# " ++ String.mk after ++ "\n"

/-- The flag field of a table-list entry: either the hard-wired production
list (`['p','pb','ps']`) or a single flag string (empty = no filter). -/
inductive TableFlag where
  | prodList (fs : List String)
  | flag (v : String)
deriving DecidableEq, Repr

/-- One `table_list` entry `[t_type, t_name, t_dtname, t_flag, t_index]`. -/
structure TableProps where
  t_type : String
  t_name : String
  t_dtname : String
  t_flag : TableFlag
  t_index : Nat
deriving DecidableEq, Repr

/-- A row of the source table. -/
abbrev Row := List Cell

/-- The rows selected by the `query_table` query: the production list keys
on flags `p`/`pb`/`ps` (hard-wired, whatever the list holds), a non-empty
single flag keys on equality, an empty flag selects everything.  `flagOf`
reads the row's flag column (its position varies per table schema). -/
def filteredRows (t : TableProps) (rows : List Row) (flagOf : Row → String) : List Row :=
  match t.t_flag with
  | .prodList _ =>
      rows.filter (fun r => flagOf r = "p" ∨ flagOf r = "pb" ∨ flagOf r = "ps")
  | .flag v => if v ≠ "" then rows.filter (fun r => flagOf r = v) else rows

/-- The section header written for a table (DAT name when a flag subdivides
the DB table, the DB name itself otherwise). -/
def sectionHeader (t : TableProps) : String :=
  match t.t_flag with
  | .prodList _ =>
      (if t.t_type = "set" then "set " else "param ") ++ t.t_dtname ++ " := \n"
  | .flag v =>
      if v ≠ "" then
        (if t.t_type = "set" then "set " else "param ") ++ t.t_dtname ++ " := \n"
      else
        (if t.t_type = "set" then "set " else "param ") ++ t.t_name ++ " := \n"

/-- `query_table` as the text it writes to `f`: nothing at all when the
filtered query has no rows (`cur.fetchone() is None → return` fires before
any header is written); otherwise the header, one line per row
(`str(line[0])` when `t_index == 0`, the split-and-comment form otherwise)
and the `;` terminator with a blank line.  (`line[0]` of the impossible
empty SQL row is given a harmless default.) -/
def query_table (t : TableProps) (rows : List Row) (flagOf : Row → String) : String :=
  let filtered := filteredRows t rows flagOf
  if filtered = [] then ""
  else
    sectionHeader t ++
      String.join (filtered.map (fun line =>
        if t.t_index = 0 then pyStr (List.headD line (Cell.s "")) ++ "\n"
        else rowLine t.t_index line)) ++
      ";\n\n"

/-- The `for table in table_list` loop of `db_2_dat`: tables whose name is
missing from `sqlite_master` (`none`) are skipped, the rest are written by
`query_table` in declaration order. -/
def db_2_dat_sections (flagOf : Row → String) :
    List (TableProps × Option (List Row)) → String
  | [] => ""
  | (t, rows?) :: rest =>
      (match rows? with
       | some rows => query_table t rows flagOf
       | none => "") ++ db_2_dat_sections flagOf rest

theorem db_2_dat_sections_append (flagOf : Row → String)
    (xs ys : List (TableProps × Option (List Row))) :
    db_2_dat_sections flagOf (xs ++ ys)
      = db_2_dat_sections flagOf xs ++ db_2_dat_sections flagOf ys := by
  induction xs with
  | nil => simp [db_2_dat_sections]
  | cons x xs ih =>
      obtain ⟨t, rows?⟩ := x
      simp [db_2_dat_sections, ih, String.append_assoc]

/-- C6: a table that exists but whose filtered query returns zero rows
contributes zero bytes — no header, no terminator — and the surrounding
loop simply continues: the full output is the output of the remaining
tables, in declaration order. -/
theorem query_table_skip_empty (t : TableProps) (rows : List Row)
    (flagOf : Row → String) (h : filteredRows t rows flagOf = []) :
    query_table t rows flagOf = "" ∧
    (∀ ts1 ts2, db_2_dat_sections flagOf (ts1 ++ (t, some rows) :: ts2)
      = db_2_dat_sections flagOf ts1 ++ db_2_dat_sections flagOf ts2) := by
  have hq : query_table t rows flagOf = "" := by
    rw [query_table]
    simp [h]
  refine ⟨hq, fun ts1 ts2 => ?_⟩
  rw [db_2_dat_sections_append, db_2_dat_sections, hq]
  simp

/-- Witness for C6: the `tech_baseload` subdivision (`flag = 'pb'`) over a
technologies table with no baseload rows writes nothing, here between two
unfiltered one-row set tables. -/
theorem query_table_skip_empty_witness :
    query_table ⟨"set", "technologies", "tech_baseload", .flag "pb", 0⟩
        [[Cell.s "coal", Cell.s "p"]] (fun r => pyStr (List.headD (List.drop 1 r) (Cell.s ""))) = "" ∧
    db_2_dat_sections (fun r => pyStr (List.headD (List.drop 1 r) (Cell.s "")))
        [(⟨"set", "time_season", "", .flag "", 0⟩, some [[Cell.s "winter"]]),
         (⟨"set", "technologies", "tech_baseload", .flag "pb", 0⟩,
           some [[Cell.s "coal", Cell.s "p"]]),
         (⟨"set", "time_of_day", "", .flag "", 0⟩, some [[Cell.s "day"]])]
      = "set time_season := \nwinter\n;\n\n" ++ "set time_of_day := \nday\n;\n\n" := by
  constructor
  · exact (query_table_skip_empty _ _ _ (by decide)).1
  · have h := (query_table_skip_empty
      ⟨"set", "technologies", "tech_baseload", .flag "pb", 0⟩
      [[Cell.s "coal", Cell.s "p"]]
      (fun r => pyStr (List.headD (List.drop 1 r) (Cell.s ""))) (by decide)).2
      [(⟨"set", "time_season", "", .flag "", 0⟩, some [[Cell.s "winter"]])]
      [(⟨"set", "time_of_day", "", .flag "", 0⟩, some [[Cell.s "day"]])]
    exact h.trans (by decide)

/-- C7 counterexample: with comment-column-index 1, the row `("A", 1)` is
NOT split into data `A` and comment `# 1`.  `before_comments = line[:2]`
keeps both fields in the data portion and `after_comments = line[3:]` is
empty, so no `#` marker is written: the claimed lines `A    # 1` /
`B    # 2` never appear. -/
theorem query_table_comment_split_cex :
    rowLine 1 [Cell.s "A", Cell.i 1] ≠ "A    # 1\n" ∧
    query_table ⟨"param", "T", "", .flag "", 1⟩
        [[Cell.s "A", Cell.i 1], [Cell.s "B", Cell.i 2]] (fun _ => "")
      ≠ "param T := \n" ++ "A    # 1\n" ++ "B    # 2\n" ++ ";\n\n" := by
  exact ⟨by decide, by decide⟩

/-- C7 amended: the split keeps columns `0..t_index` in the data portion
and takes the trailing comment from column `t_index + 2` onward, so for the
two-column rows `("A", 1)` and `("B", 2)` with comment-column-index 1 both
fields land in the data portion (quotes, commas and parentheses of the row
tuple collapsed to four spaces each), the trailing text is empty and the
`#` marker is omitted; the data lines are followed by the `;`
terminator. -/
theorem query_table_comment_split_amended :
    query_table ⟨"param", "T", "", .flag "", 1⟩
        [[Cell.s "A", Cell.i 1], [Cell.s "B", Cell.i 2]] (fun _ => "")
      = "param T := \n" ++ "    A         1    \n" ++ "    B         2    \n"
          ++ ";\n\n" ∧
    rowLine 1 [Cell.s "A", Cell.i 1] = "    A         1    \n" ∧
    rowLine 1 [Cell.s "B", Cell.i 2] = "    B         2    \n" := by
  exact ⟨by decide, by decide, by decide⟩

/-- The fixed set of output tables cleared before a myopic solve, in the
order of the `DELETE` statements of `db_2_dat`. -/
def myopicOutputTables : List String :=
  ["Output_CapacityByPeriodAndTech", "Output_Emissions", "Output_Costs",
   "Output_Objective", "Output_VFlow_In", "Output_VFlow_Out",
   "Output_V_Capacity", "Output_Curtailment", "Output_Duals"]

/-- `DELETE FROM tbl WHERE scenario='scen'` over a store modelled as an
association list from table name to rows; `scenarioOf` reads a row's
scenario column. -/
def execDeleteScenario {R : Type} (scenarioOf : R → String) (tbl scen : String)
    (db : List (String × List R)) : List (String × List R) :=
  db.map (fun tr =>
    if tr.1 = tbl then (tr.1, tr.2.filter (fun r => scenarioOf r ≠ scen)) else tr)

/-- The myopic cleanup of `db_2_dat` (`if options.myopic:`): the nine
`DELETE` statements in code order.  The closing `VACUUM` compaction does
not change row content and is not modelled. -/
def myopicCleanup {R : Type} (scenarioOf : R → String) (scen : String)
    (db : List (String × List R)) : List (String × List R) :=
  myopicOutputTables.foldl (fun d tbl => execDeleteScenario scenarioOf tbl scen d) db

theorem foldl_execDelete {R : Type} (scenarioOf : R → String) (scen : String) :
    ∀ (ts : List String) (db : List (String × List R)),
      ts.foldl (fun d tbl => execDeleteScenario scenarioOf tbl scen d) db
        = db.map (fun tr =>
            if tr.1 ∈ ts then (tr.1, tr.2.filter (fun r => scenarioOf r ≠ scen))
            else tr) := by
  intro ts
  induction ts with
  | nil => intro db; simp
  | cons t ts ih =>
      intro db
      rw [List.foldl_cons, ih (execDeleteScenario scenarioOf t scen db),
        execDeleteScenario, List.map_map]
      congr 1
      funext tr
      by_cases h1 : tr.1 = t <;> by_cases h2 : tr.1 ∈ ts <;>
        simp [Function.comp_def, h1, h2, List.filter_filter]

/-- C9: the myopic cleanup rewrites the store by deleting, in each of the
nine fixed output tables, exactly the rows whose scenario column equals the
current scenario name; tables outside the fixed set keep their entry
untouched, rows with a different scenario value survive (in every table),
and no row carrying the scenario name survives in any of the fixed
tables. -/
theorem myopic_cleanup_spec {R : Type} (scenarioOf : R → String) (scen : String)
    (db : List (String × List R)) :
    myopicCleanup scenarioOf scen db
      = db.map (fun tr =>
          if tr.1 ∈ myopicOutputTables then
            (tr.1, tr.2.filter (fun r => scenarioOf r ≠ scen))
          else tr) ∧
    (∀ tbl rows, (tbl, rows) ∈ db → tbl ∉ myopicOutputTables →
      (tbl, rows) ∈ myopicCleanup scenarioOf scen db) ∧
    (∀ tbl rows r, (tbl, rows) ∈ db → r ∈ rows → scenarioOf r ≠ scen →
      ∃ rows2, (tbl, rows2) ∈ myopicCleanup scenarioOf scen db ∧ r ∈ rows2) ∧
    (∀ tbl rows2 r, tbl ∈ myopicOutputTables →
      (tbl, rows2) ∈ myopicCleanup scenarioOf scen db → r ∈ rows2 →
      scenarioOf r ≠ scen) := by
  have hmain : myopicCleanup scenarioOf scen db
      = db.map (fun tr =>
          if tr.1 ∈ myopicOutputTables then
            (tr.1, tr.2.filter (fun r => scenarioOf r ≠ scen))
          else tr) :=
    foldl_execDelete scenarioOf scen myopicOutputTables db
  refine ⟨hmain, ?_, ?_, ?_⟩
  · intro tbl rows hmem hnot
    rw [hmain]
    exact List.mem_map.mpr ⟨(tbl, rows), hmem, by simp [hnot]⟩
  · intro tbl rows r hmem hr hscen
    refine ⟨if tbl ∈ myopicOutputTables then rows.filter (fun r => scenarioOf r ≠ scen) else rows, ?_, ?_⟩
    · rw [hmain]
      refine List.mem_map.mpr ⟨(tbl, rows), hmem, ?_⟩
      by_cases h : tbl ∈ myopicOutputTables <;> simp [h]
    · by_cases h : tbl ∈ myopicOutputTables <;> simp [h, List.mem_filter, hr, hscen]
  · intro tbl rows2 r htbl hmem hr
    rw [hmain] at hmem
    obtain ⟨⟨tbl0, rows0⟩, hmem0, heq⟩ := List.mem_map.mp hmem
    by_cases h0 : tbl0 ∈ myopicOutputTables
    · simp only [h0, if_pos] at heq
      rw [Prod.ext_iff] at heq
      obtain ⟨h1, h2⟩ := heq
      dsimp only at h1 h2
      subst h1
      rw [← h2] at hr
      have := List.mem_filter.mp hr
      simpa using this.2
    · simp only [h0, if_neg, not_false_iff] at heq
      rw [Prod.ext_iff] at heq
      obtain ⟨h1, h2⟩ := heq
      dsimp only at h1 h2
      subst h1
      exact absurd htbl h0

/-- Witness for C9: a store with one fixed output table holding scenarios
`s` and `t` and one unrelated table holding `s`; cleaning scenario `s`
removes only the `s` row of the output table. -/
theorem myopic_cleanup_spec_witness :
    myopicCleanup (fun r : String => r) "s"
        [("Output_Costs", ["s", "t"]), ("Other", ["s"])]
      = [("Output_Costs", ["t"]), ("Other", ["s"])] ∧
    ("Other", ["s"]) ∈ myopicCleanup (fun r : String => r) "s"
        [("Output_Costs", ["s", "t"]), ("Other", ["s"])] := by
  constructor
  · exact (myopic_cleanup_spec (fun r => r) "s"
      [("Output_Costs", ["s", "t"]), ("Other", ["s"])]).1.trans (by decide)
  · exact (myopic_cleanup_spec (fun r => r) "s"
      [("Output_Costs", ["s", "t"]), ("Other", ["s"])]).2.1 "Other" ["s"]
      (by decide) (by decide)

/-- Python regex whitespace `\s` (ASCII). -/
def isPyWs (c : Char) : Bool :=
  c = ' ' || c = '\t' || c = '\n' || c = '\r' || c = '\x0b' || c = '\x0c'

/-- The separator class `[\s\=]` of the `--input` pattern. -/
def isSepChar (c : Char) : Bool :=
  isPyWs c || c = '='

/-- The path character class `[-\\\/\:\.\~\w]` of the `--input` pattern. -/
def isPathChar (c : Char) : Bool :=
  c = '-' || c = '\\' || c = '/' || c = ':' || c = '.' || c = '~' || isWordChar c

/-- The extension alternation `(\.dat|\.db|\.sqlite)`, in regex order. -/
def dotDatExts : List (List Char) :=
  [".dat".data, ".db".data, ".sqlite".data]

/-- `\b` after an extension (each ends in a word character): the next char
is absent or a non-word character. -/
def wordBoundaryAfter (rest : List Char) : Bool :=
  match rest with
  | [] => true
  | c :: _ => !(isWordChar c)

/-- Try the three extension alternatives in regex order at this position,
each followed by a word boundary. -/
def matchExtAt (cs : List Char) : Option (List Char × List Char) :=
  dotDatExts.findSome? (fun g =>
    if g.isPrefixOf cs && wordBoundaryAfter (cs.drop g.length) then
      some (g, cs.drop g.length)
    else none)

/-- Greedy match of `[-\\\/\:\.\~\w]+(\.dat|\.db|\.sqlite)\b` with
backtracking, exactly as the regex engine runs it: consume another path
character first; on failure of the longer attempt, try the extension
alternatives at the current position (requires at least one previously
consumed path character in `acc`).  On success returns the matched
`path ++ ext` and the unconsumed rest. -/
def matchFrom (acc : List Char) : List Char → Option (List Char × List Char)
  | [] => none
  | c :: rest =>
      if isPathChar c then
        match matchFrom (acc ++ [c]) rest with
        | some r => some r
        | none =>
            if acc.isEmpty then none
            else (matchExtAt (c :: rest)).map (fun gr => (acc ++ gr.1, gr.2))
      else
        if acc.isEmpty then none
        else (matchExtAt (c :: rest)).map (fun gr => (acc ++ gr.1, gr.2))

/-- The `t_dot_dat` token rule
`--input[\s\=]+[-\\\/\:\.\~\w]+(\.dat|\.db|\.sqlite)\b` matched at the
current position: the literal keyword, then a maximal non-empty run of
separator characters (shorter runs cannot help, as the path class contains
no separator characters), then the greedy path-plus-extension match.
Returns (separators, matched path, unconsumed rest). -/
def t_dot_dat_tok (cs : List Char) : Option (List Char × List Char × List Char) :=
  if "--input".data.isPrefixOf cs then
    let after := cs.drop 7
    let seps := after.takeWhile isSepChar
    if seps.isEmpty then none
    else (matchFrom [] (after.dropWhile isSepChar)).map (fun pr => (seps, pr.1, pr.2))
  else none

/-- Python `str.split()` (split on whitespace runs, dropping empty
pieces), as an accumulator recursion over the characters. -/
def pySplitAux : List Char → List Char → List (List Char)
  | [], acc => if acc.isEmpty then [] else [acc.reverse]
  | c :: rest, acc =>
      if isPyWs c then
        if acc.isEmpty then pySplitAux rest []
        else acc.reverse :: pySplitAux rest []
      else pySplitAux rest (c :: acc)

def pySplit (cs : List Char) : List (List Char) :=
  pySplitAux cs []

/-- `t.value.replace('=', ' ')`. -/
def replaceEq (cs : List Char) : List Char :=
  cs.map (fun c => if c = '=' then ' ' else c)

/-- The value appended to `self.dot_dat` by the `t_dot_dat` action:
`t.value.replace('=', ' ').split()[1]` over the matched lexeme.  (The
`abspath` call prepends the working directory without changing the file
name and is not modelled; the out-of-range default `[]` is never reached,
as proven below.) -/
def t_dot_dat_value (cs : List Char) : Option (List Char) :=
  (t_dot_dat_tok cs).map (fun spr =>
    (pySplit (replaceEq ("--input".data ++ spr.1 ++ spr.2.1))).getD 1 [])

theorem sep_not_path (c : Char) (h : isSepChar c = true) : isPathChar c = false := by
  simp only [isSepChar, isPyWs, Bool.or_eq_true, decide_eq_true_eq] at h
  rcases h with (((((h | h) | h) | h) | h) | h) | h <;> subst h <;> decide

theorem path_not_ws (c : Char) (h : isPathChar c = true) : isPyWs c = false := by
  by_contra hw
  have hw2 : isPyWs c = true := by
    cases hws : isPyWs c
    · exact absurd hws hw
    · rfl
  have := sep_not_path c (by simp [isSepChar, hw2])
  rw [h] at this
  exact absurd this (by decide)

theorem path_not_eq (c : Char) (h : isPathChar c = true) : c ≠ '=' := by
  intro he
  subst he
  exact absurd h (by decide)

theorem ext_chars_path : ∀ g ∈ dotDatExts, ∀ c ∈ g, isPathChar c = true := by
  decide

theorem matchExtAt_mem (cs g rest : List Char)
    (h : matchExtAt cs = some (g, rest)) : g ∈ dotDatExts := by
  obtain ⟨a, ha, hfa⟩ := List.exists_of_findSome?_eq_some h
  by_cases hc : (a.isPrefixOf cs && wordBoundaryAfter (cs.drop a.length)) = true
  · rw [if_pos hc] at hfa
    have := Option.some.inj hfa
    rw [Prod.ext_iff] at this
    obtain ⟨h1, _⟩ := this
    dsimp only at h1
    exact h1 ▸ ha
  · rw [if_neg hc] at hfa
    exact absurd hfa (by simp)

theorem matchFrom_spec :
    ∀ (cs acc p rest : List Char), matchFrom acc cs = some (p, rest) →
      ∃ u g, g ∈ dotDatExts ∧ p = acc ++ (u ++ g) ∧ (∀ c ∈ u, isPathChar c = true) := by
  intro cs
  induction cs with
  | nil =>
      intro acc p rest h
      exact absurd h (by simp [matchFrom])
  | cons c rest' ih =>
      intro acc p rest h
      rw [matchFrom] at h
      have hTry : (if acc.isEmpty then none
            else (matchExtAt (c :: rest')).map (fun gr => (acc ++ gr.1, gr.2)))
              = some (p, rest) →
          ∃ u g, g ∈ dotDatExts ∧ p = acc ++ (u ++ g) ∧
            (∀ x ∈ u, isPathChar x = true) := by
        intro h2
        split at h2
        · exact absurd h2 (by simp)
        · obtain ⟨⟨g, r2⟩, hm, heq⟩ := Option.map_eq_some'.mp h2
          rw [Prod.ext_iff] at heq
          obtain ⟨h1, _⟩ := heq
          dsimp only at h1
          refine ⟨[], g, matchExtAt_mem _ _ _ hm, ?_, by simp⟩
          rw [← h1]
          simp
      by_cases hc : isPathChar c
      · rw [if_pos hc] at h
        cases hd : matchFrom (acc ++ [c]) rest' with
        | some r =>
            rw [hd] at h
            dsimp only at h
            have hr : r = (p, rest) := Option.some.inj h
            obtain ⟨u, g, hg, hp, hu⟩ := ih (acc ++ [c]) p rest (by rw [hd, hr])
            refine ⟨c :: u, g, hg, ?_, ?_⟩
            · rw [hp]
              simp
            · intro x hx
              rcases List.mem_cons.mp hx with rfl | hx
              · exact hc
              · exact hu x hx
        | none =>
            rw [hd] at h
            exact hTry h
      · rw [if_neg hc] at h
        exact hTry h

theorem replaceEq_path (p : List Char) (hp : ∀ c ∈ p, isPathChar c = true) :
    replaceEq p = p := by
  induction p with
  | nil => rfl
  | cons c t ih =>
      rw [replaceEq, List.map_cons,
        if_neg (path_not_eq c (hp c (by simp)))]
      exact congrArg (c :: ·) (ih (fun x hx => hp x (by simp [hx])))

theorem replaceEq_sep_ws (s : List Char) (hs : ∀ c ∈ s, isSepChar c = true) :
    ∀ c ∈ replaceEq s, isPyWs c = true := by
  intro c hc
  obtain ⟨c0, hc0, rfl⟩ := List.mem_map.mp hc
  by_cases he : c0 = '='
  · subst he
    rw [if_pos rfl]
    decide
  · rw [if_neg he]
    have := hs c0 hc0
    simp only [isSepChar, Bool.or_eq_true, decide_eq_true_eq] at this
    rcases this with hws | hval
    · exact hws
    · exact absurd hval he

theorem pySplitAux_nonws (w : List Char) :
    ∀ (rest acc : List Char), (∀ c ∈ w, isPyWs c = false) →
      pySplitAux (w ++ rest) acc = pySplitAux rest (w.reverse ++ acc) := by
  induction w with
  | nil => intro rest acc _; simp
  | cons c w ih =>
      intro rest acc h
      have hc : isPyWs c = false := h c (by simp)
      show pySplitAux (c :: (w ++ rest)) acc = _
      rw [pySplitAux, if_neg (by simp [hc])]
      rw [ih rest (c :: acc) (fun x hx => h x (by simp [hx]))]
      simp

theorem pySplitAux_ws_empty (s : List Char) :
    ∀ rest, (∀ c ∈ s, isPyWs c = true) →
      pySplitAux (s ++ rest) [] = pySplitAux rest [] := by
  induction s with
  | nil => intro rest _; rfl
  | cons c t ih =>
      intro rest h
      show pySplitAux (c :: (t ++ rest)) [] = _
      rw [pySplitAux, if_pos (by simp [h c (by simp)])]
      simp only [List.isEmpty_nil, if_pos]
      exact ih rest (fun x hx => h x (by simp [hx]))

theorem pySplit_kw_seps_path (seps p : List Char) (hs : seps ≠ [])
    (hsep : ∀ c ∈ seps, isPyWs c = true) (hp : p ≠ [])
    (hpw : ∀ c ∈ p, isPyWs c = false) :
    pySplit ("--input".data ++ seps ++ p) = ["--input".data, p] := by
  rw [pySplit, List.append_assoc,
    pySplitAux_nonws "--input".data (seps ++ p) [] (by decide)]
  cases seps with
  | nil => exact absurd rfl hs
  | cons c s2 =>
      show pySplitAux (c :: (s2 ++ p)) _ = _
      have hlast : pySplitAux p [] = [p] := by
        have h2 := pySplitAux_nonws p [] [] hpw
        rw [List.append_nil] at h2
        rw [h2, pySplitAux, if_neg (by simp [hp])]
        simp
      rw [pySplitAux, if_pos (by simp [hsep c (by simp)]),
        if_neg (by decide : ¬("--input".data.reverse ++ [] : List Char).isEmpty = true),
        pySplitAux_ws_empty s2 p (fun x hx => hsep x (by simp [hx])), hlast]
      simp

theorem t_dot_dat_value_spec (cs seps p rest : List Char)
    (h : t_dot_dat_tok cs = some (seps, p, rest)) :
    t_dot_dat_value cs = some p ∧ ∃ g, g ∈ dotDatExts ∧ g <:+ p := by
  have h0 := h
  rw [t_dot_dat_tok] at h
  by_cases hpre : "--input".data.isPrefixOf cs
  swap
  · rw [if_neg hpre] at h
    exact absurd h (by simp)
  rw [if_pos hpre] at h
  dsimp only at h
  by_cases hse : (List.takeWhile isSepChar (cs.drop 7)).isEmpty
  · rw [if_pos hse] at h
    exact absurd h (by simp)
  rw [if_neg hse] at h
  obtain ⟨⟨p0, r0⟩, hm, heq⟩ := Option.map_eq_some'.mp h
  rw [Prod.ext_iff] at heq
  obtain ⟨hseps, heq2⟩ := heq
  rw [Prod.ext_iff] at heq2
  obtain ⟨hp0, hr0⟩ := heq2
  dsimp only at hseps hp0 hr0
  obtain ⟨u, g, hg, hpshape, hu⟩ := matchFrom_spec _ [] p0 r0 hm
  rw [List.nil_append] at hpshape
  have hpchars : ∀ c ∈ p, isPathChar c = true := by
    intro c hc
    rw [← hp0, hpshape] at hc
    rcases List.mem_append.mp hc with hcu | hcg
    · exact hu c hcu
    · exact ext_chars_path g hg c hcg
  have hpne : p ≠ [] := by
    rw [← hp0, hpshape]
    have : g ≠ [] := by
      have hg2 : g = ".dat".data ∨ g = ".db".data ∨ g = ".sqlite".data := by
        simpa [dotDatExts] using hg
      rcases hg2 with rfl | rfl | rfl <;> decide
    intro habs
    exact this (List.append_eq_nil.mp habs).2
  have hsepschars : ∀ c ∈ seps, isSepChar c = true := by
    intro c hc
    rw [← hseps] at hc
    exact List.mem_takeWhile_imp hc
  have hsplit : pySplit (replaceEq ("--input".data ++ seps ++ p))
      = ["--input".data, p] := by
    have hre : replaceEq ("--input".data ++ seps ++ p)
        = "--input".data ++ replaceEq seps ++ p := by
      rw [replaceEq, List.map_append, List.map_append]
      rw [show List.map (fun c => if c = '=' then ' ' else c) "--input".data
            = "--input".data from by decide]
      rw [show List.map (fun c => if c = '=' then ' ' else c) p = p from
        replaceEq_path p hpchars]
      rfl
    rw [hre]
    refine pySplit_kw_seps_path (replaceEq seps) p ?_
      (replaceEq_sep_ws seps hsepschars) hpne
      (fun c hc => path_not_ws c (hpchars c hc))
    intro habs
    rw [replaceEq] at habs
    have : seps = [] := List.map_eq_nil_iff.mp habs
    rw [← hseps] at this
    rw [this] at hse
    exact hse (by simp)
  constructor
  · rw [t_dot_dat_value, h0, Option.map_some', hsplit]
    rfl
  · exact ⟨g, hg, ⟨u, hpshape ▸ hp0 ▸ rfl⟩⟩

/-- C10: every value the `--input` rule appends to `dot_dat` ends in
`.dat`, `.db` or `.sqlite` — whenever the token pattern matches, the
appended `split()[1]` value is exactly the matched path, which carries one
of the three extensions as a suffix; the pattern does not match
`--input=file.sqlite3` or `--input data.txt` (nor at any later offset of
the former), and lexing such a directive instead records every character
through `t_ANY_error` at contiguous offsets, merging into a single error
span.  (No other token rule of the `INITIAL` lexer state can fire inside
these directives: each needs its own literal prefix such as `--output`,
`#`, a newline or a space/tab, none of which occurs here.) -/
theorem input_extension_invariant :
    (∀ cs seps p rest, t_dot_dat_tok cs = some (seps, p, rest) →
      t_dot_dat_value cs = some p ∧ ∃ g, g ∈ dotDatExts ∧ g <:+ p) ∧
    t_dot_dat_tok "--input=file.sqlite3".data = none ∧
    t_dot_dat_tok "--input data.txt".data = none ∧
    ((List.range 21).all (fun k =>
      (t_dot_dat_tok ("--input=file.sqlite3".data.drop k)).isNone)) = true ∧
    lexErrorEvents [] (mkRun 0 ("--input=file.sqlite3".data.map (fun c => (1, c))))
      = [⟨1, 1, 0, 19, "--input=file.sqlite3".data⟩] := by
  exact ⟨t_dot_dat_value_spec, by decide, by decide, by decide, by decide⟩

/-- Witness for C10 at `--input=file.db`: the appended value is `file.db`,
ending in `.db`. -/
theorem input_extension_invariant_witness :
    t_dot_dat_value "--input=file.db".data = some "file.db".data ∧
    ∃ g, g ∈ dotDatExts ∧ g <:+ "file.db".data := by
  exact input_extension_invariant.1 "--input=file.db".data ['=']
    "file.db".data [] (by decide)
